import Mathlib

/- Verification development for the BNPTSClust Python port: a shallow embedding
of comp.py, scaleandperiods.py, designmatrices.py and the relevant parts of
tseriescm.py, together with theorems settling the specification's claims.
Real values are modelled by the rationals; random draws become universally
quantified inputs constrained to the support of the distribution they are
drawn from; code paths that raise a Python exception are modelled by none. -/

namespace BNPTSClust

/-! ## Partition Utility (comp.py) -/

/-- Position j holds the first occurrence of its value in the vector v:
no strictly earlier entry is exactly equal to it (comp.py compares with ==,
i.e. exact equality). -/
def firstOcc (v : List ℚ) (j : ℕ) : Prop :=
  j < v.length ∧ ∀ k, k < j → v.getD k 0 ≠ v.getD j 0

/-- Test from comp.py line 39, all(np.delete(led, np.arange(0,j+1))):
every index strictly above j is already marked as matched. -/
def allLedAbove (v : List ℚ) (j : ℕ) (led : ℕ → Bool) : Bool :=
  ((List.range v.length).filter (fun k => decide (j < k))).all led

/-- The scan of comp.py lines 31-40.  State: the loop index j, the flags
jstar (js) of representatives found so far and led of entries already matched
to an earlier representative.  An unmatched entry becomes a representative and
marks every later equal entry as matched (led[ji] = led[ji] | tt); the loop
breaks early when j is the last index or when every remaining entry is
matched.  The for-loop bound range(n) is the structural fuel argument. -/
def compLoop (v : List ℚ) : ℕ → ℕ → (ℕ → Bool) → (ℕ → Bool) → (ℕ → Bool)
  | 0, _, js, _ => js
  | fuel + 1, j, js, led =>
    if led j = true then
      if allLedAbove v j led = true then js
      else compLoop v fuel (j + 1) js led
    else
      let js' := fun k => decide (k = j) || js k
      if j + 1 = v.length then js'
      else
        let led' := fun k =>
          led k || (decide (j < k) && decide (v.getD k 0 = v.getD j 0))
        if allLedAbove v j led' = true then js'
        else compLoop v fuel (j + 1) js' led'

/-- jstar of comp.py: the boolean selector of representative positions,
obtained by running the scan from index 0 with all flags cleared. -/
def jstar (v : List ℚ) : ℕ → Bool :=
  compLoop v v.length 0 (fun _ => false) (fun _ => false)

/-- The list of representative positions (the positions selected by jstar,
in increasing order), i.e. the positions kept by the fancy indexing
vector[jstar] in comp.py line 42. -/
def reps (v : List ℚ) : List ℕ :=
  (List.range v.length).filter (fun j => jstar v j)

/-- ystar of comp.py line 42: the vector of representative values. -/
def ystar (v : List ℚ) : List ℚ :=
  (reps v).map (fun j => v.getD j 0)

/-- nstar of comp.py line 43: for every representative position, the number
of entries of v exactly equal to the representative's value (the column sums
of mat[:, jstar]). -/
def nstar (v : List ℚ) : List ℕ :=
  (reps v).map (fun j =>
    ((List.range v.length).filter (fun i => decide (v.getD i 0 = v.getD j 0))).length)

/-- rstar of comp.py line 44: the number of distinct observations. -/
def rstar (v : List ℚ) : ℕ := (nstar v).length

/-- pandas match (comp.py line 45): the index of the first entry of ys equal
to x, and -1 when x does not occur in ys. -/
def pdMatch (x : ℚ) : List ℚ → ℤ
  | [] => -1
  | y :: ys =>
    if y = x then 0
    else
      let r := pdMatch x ys
      if r = -1 then -1 else r + 1

/-- gn of comp.py line 45: the group number of every entry of v, i.e. the
position in ystar of the representative carrying the entry's value. -/
def gn (v : List ℚ) : List ℤ :=
  v.map (fun x => pdMatch x (ystar v))

/-- comp of comp.py: the full output tuple (jstar, nstar, rstar, gn). -/
def comp (v : List ℚ) : (ℕ → Bool) × List ℕ × ℕ × List ℤ :=
  (jstar v, nstar v, rstar v, gn v)

/-- Among the entries strictly before j that share j's value there is a first
occurrence (the least such index). -/
theorem exists_firstOcc_lt (v : List ℚ) (j : ℕ) (hj : j < v.length)
    (h : ∃ k, k < j ∧ v.getD k 0 = v.getD j 0) :
    ∃ l, l < j ∧ firstOcc v l ∧ v.getD j 0 = v.getD l 0 := by
  have hex : ∃ l, l < j ∧ v.getD l 0 = v.getD j 0 := h
  classical
  have hPl : Nat.find hex < j ∧ v.getD (Nat.find hex) 0 = v.getD j 0 :=
    Nat.find_spec hex
  refine ⟨Nat.find hex, hPl.1, ⟨by omega, ?_⟩, hPl.2.symm⟩
  intro m hm hEq
  have hnot : ¬(m < j ∧ v.getD m 0 = v.getD j 0) := Nat.find_min hex hm
  exact hnot ⟨by omega, by rw [hEq, hPl.2]⟩

/-- Invariant-based characterization of the comp.py scan: started at index j
with correct partial flags, it produces exactly the first-occurrence flags. -/
theorem compLoop_spec (v : List ℚ) :
    ∀ (fuel j : ℕ) (js led : ℕ → Bool),
      v.length = j + fuel →
      (∀ k, js k = true ↔ (k < j ∧ firstOcc v k)) →
      (∀ k, led k = true ↔
        ∃ l, l < j ∧ l < k ∧ firstOcc v l ∧ v.getD k 0 = v.getD l 0) →
      ∀ k, compLoop v fuel j js led k = true ↔ firstOcc v k := by
  intro fuel
  induction fuel with
  | zero =>
    intro j js led hlen hJ hL k
    simp only [compLoop]
    rw [hJ k]
    exact ⟨fun h => h.2, fun h => ⟨by have := h.1; omega, h⟩⟩
  | succ fuel ih =>
    intro j js led hlen hJ hL k
    have hj : j < v.length := by omega
    simp only [compLoop]
    by_cases hledj : led j = true
    · obtain ⟨l, hlj, _, hfl, hveq⟩ := (hL j).mp hledj
      have hnotfirst : ¬ firstOcc v j := fun hf => hf.2 l hlj hveq.symm
      rw [if_pos hledj]
      by_cases hall : allLedAbove v j led = true
      · rw [if_pos hall]
        rw [hJ k]
        refine ⟨fun h => h.2, fun hf => ⟨?_, hf⟩⟩
        by_contra hkj
        have hjk : j < k := by
          rcases Nat.lt_or_ge j k with h | h
          · exact h
          · rcases Nat.eq_or_lt_of_le h with h' | h'
            · exact absurd (h' ▸ hf) hnotfirst
            · omega
        have hledk : led k = true := by
          have hk : k ∈ (List.range v.length).filter (fun m => decide (j < m)) := by
            simp only [List.mem_filter, List.mem_range, decide_eq_true_eq]
            exact ⟨hf.1, hjk⟩
          rw [allLedAbove] at hall
          exact (List.all_eq_true.mp hall) k hk
        obtain ⟨m, _, hmk, _, hveqk⟩ := (hL k).mp hledk
        exact hf.2 m hmk hveqk.symm
      · rw [if_neg hall]
        refine ih (j + 1) js led (by omega) ?_ ?_ k
        · intro m
          rw [hJ m]
          constructor
          · rintro ⟨h1, h2⟩; exact ⟨by omega, h2⟩
          · rintro ⟨h1, h2⟩
            rcases Nat.lt_succ_iff_lt_or_eq.mp h1 with h | h
            · exact ⟨h, h2⟩
            · exact absurd (h ▸ h2) hnotfirst
        · intro m
          rw [hL m]
          constructor
          · rintro ⟨l', h1, h2, h3, h4⟩; exact ⟨l', by omega, h2, h3, h4⟩
          · rintro ⟨l', h1, h2, h3, h4⟩
            refine ⟨l', ?_, h2, h3, h4⟩
            rcases Nat.lt_succ_iff_lt_or_eq.mp h1 with h | h
            · exact h
            · exact absurd (h ▸ h3) hnotfirst
    · rw [if_neg hledj]
      have hfj : firstOcc v j := by
        refine ⟨hj, fun m hm hEq => ?_⟩
        obtain ⟨l, hlj, hfl, hveq'⟩ := exists_firstOcc_lt v j hj ⟨m, hm, hEq⟩
        exact hledj ((hL j).mpr ⟨l, hlj, hlj, hfl, hveq'⟩)
      have hJ' : ∀ m, (fun k => decide (k = j) || js k) m = true ↔
          (m < j + 1 ∧ firstOcc v m) := by
        intro m
        simp only [Bool.or_eq_true, decide_eq_true_eq]
        rw [hJ m]
        constructor
        · rintro (h | ⟨h1, h2⟩)
          · exact ⟨by omega, h.symm ▸ hfj⟩
          · exact ⟨by omega, h2⟩
        · rintro ⟨h1, h2⟩
          rcases Nat.lt_succ_iff_lt_or_eq.mp h1 with h | h
          · exact Or.inr ⟨h, h2⟩
          · exact Or.inl h
      by_cases hend : j + 1 = v.length
      · rw [if_pos hend]
        rw [hJ' k]
        exact ⟨fun h => h.2, fun h => ⟨by have := h.1; omega, h⟩⟩
      · rw [if_neg hend]
        have hL' : ∀ m, (fun k => led k ||
            (decide (j < k) && decide (v.getD k 0 = v.getD j 0))) m = true ↔
            ∃ l, l < j + 1 ∧ l < m ∧ firstOcc v l ∧ v.getD m 0 = v.getD l 0 := by
          intro m
          simp only [Bool.or_eq_true, Bool.and_eq_true, decide_eq_true_eq]
          rw [hL m]
          constructor
          · rintro (⟨l', h1, h2, h3, h4⟩ | ⟨h1, h2⟩)
            · exact ⟨l', by omega, h2, h3, h4⟩
            · exact ⟨j, by omega, h1, hfj, h2⟩
          · rintro ⟨l', h1, h2, h3, h4⟩
            rcases Nat.lt_succ_iff_lt_or_eq.mp h1 with h | h
            · exact Or.inl ⟨l', h, h2, h3, h4⟩
            · subst h; exact Or.inr ⟨h2, h4⟩
        by_cases hall : allLedAbove v j (fun k => led k ||
            (decide (j < k) && decide (v.getD k 0 = v.getD j 0))) = true
        · rw [if_pos hall]
          rw [hJ' k]
          refine ⟨fun h => h.2, fun hf => ⟨?_, hf⟩⟩
          by_contra hkj
          have hjk : j < k := by omega
          have hledk : (fun k => led k ||
              (decide (j < k) && decide (v.getD k 0 = v.getD j 0))) k = true := by
            have hk : k ∈ (List.range v.length).filter (fun m => decide (j < m)) := by
              simp only [List.mem_filter, List.mem_range, decide_eq_true_eq]
              exact ⟨hf.1, hjk⟩
            rw [allLedAbove] at hall
            exact (List.all_eq_true.mp hall) k hk
          obtain ⟨m, _, hmk, _, hveqk⟩ := (hL' k).mp hledk
          exact hf.2 m hmk hveqk.symm
        · rw [if_neg hall]
          exact ih (j + 1) _ _ (by omega) hJ' hL' k

/-- jstar marks exactly the first-occurrence positions of v. -/
theorem jstar_spec (v : List ℚ) (k : ℕ) : jstar v k = true ↔ firstOcc v k := by
  refine compLoop_spec v v.length 0 _ _ (by omega) ?_ ?_ k
  · intro m; simp
  · intro m; simp

/-- Reading a list entrywise through getD over its index range gives the list back. -/
theorem map_getD_range (v : List ℚ) :
    (List.range v.length).map (fun i => v.getD i 0) = v := by
  induction v with
  | nil => simp
  | cons x xs ih =>
    simp only [List.length_cons, List.range_succ_eq_map, List.map_cons,
      List.map_map]
    refine congrArg (x :: ·) ?_
    have hfun : ((fun i => (x :: xs).getD i 0) ∘ Nat.succ) =
        (fun i => xs.getD i 0) := by
      funext i
      simp [List.getD]
    rw [hfun, ih]

/-- Every value of v occurs at a first-occurrence position. -/
theorem firstOcc_of_mem (v : List ℚ) {x : ℚ} (hx : x ∈ v) :
    ∃ l, firstOcc v l ∧ v.getD l 0 = x := by
  classical
  obtain ⟨i, hi, hvi⟩ := List.mem_iff_getElem.mp hx
  have hex : ∃ l, l < v.length ∧ v.getD l 0 = x :=
    ⟨i, hi, by rw [List.getD_eq_getElem _ _ hi, hvi]⟩
  have hPl : Nat.find hex < v.length ∧ v.getD (Nat.find hex) 0 = x :=
    Nat.find_spec hex
  refine ⟨Nat.find hex, ⟨hPl.1, fun m hm hEq => ?_⟩, hPl.2⟩
  exact Nat.find_min hex hm ⟨by omega, by rw [hEq, hPl.2]⟩

/-- Membership in ystar is membership in v. -/
theorem mem_ystar_iff (v : List ℚ) (x : ℚ) : x ∈ ystar v ↔ x ∈ v := by
  constructor
  · intro hx
    obtain ⟨j, hj, hval⟩ := List.mem_map.mp hx
    have hjl : j < v.length := List.mem_range.mp (List.mem_filter.mp hj).1
    rw [← hval, List.getD_eq_getElem _ _ hjl]
    exact List.getElem_mem hjl
  · intro hx
    obtain ⟨l, hfl, hval⟩ := firstOcc_of_mem v hx
    refine List.mem_map.mpr ⟨l, ?_, hval⟩
    refine List.mem_filter.mpr ⟨List.mem_range.mpr hfl.1, ?_⟩
    simpa using (jstar_spec v l).mpr hfl

/-- The representative values are pairwise distinct. -/
theorem ystar_nodup (v : List ℚ) : (ystar v).Nodup := by
  have h1 : (reps v).Pairwise (· < ·) :=
    (List.pairwise_lt_range v.length).filter _
  have h2 : (reps v).Pairwise (fun a b => v.getD a 0 ≠ v.getD b 0) := by
    refine h1.imp_of_mem ?_
    intro a b _ hb hab
    have hfb : firstOcc v b := by
      have := (List.mem_filter.mp hb).2
      exact (jstar_spec v b).mp (by simpa using this)
    exact hfb.2 a hab
  exact List.pairwise_map.mpr h2

/-- The number of indices of v carrying a given value is the count of that
value in v. -/
theorem filter_value_length (v : List ℚ) (y : ℚ) :
    ((List.range v.length).filter (fun i => decide (v.getD i 0 = y))).length =
      v.count y := by
  rw [← List.countP_eq_length_filter]
  have h1 : List.countP (fun i => decide (v.getD i 0 = y)) (List.range v.length) =
      List.countP (fun x => decide (x = y))
        ((List.range v.length).map (fun i => v.getD i 0)) := by
    rw [List.countP_map]
    rfl
  rw [h1, map_getD_range]
  rw [List.count]
  refine List.countP_congr ?_
  intro x _
  simp [beq_iff_eq]

/-- nstar lists the counts in v of the representative values. -/
theorem nstar_eq_map_count (v : List ℚ) :
    nstar v = (ystar v).map (fun y => v.count y) := by
  rw [nstar, ystar, List.map_map]
  refine List.map_congr_left ?_
  intro j _
  simp only [Function.comp]
  exact filter_value_length v (v.getD j 0)

/-- The per-representative counts sum to the length of the vector. -/
theorem nstar_sum (v : List ℚ) : (nstar v).sum = v.length := by
  classical
  have hperm : (ystar v).Perm v.dedup := by
    refine List.perm_of_nodup_nodup_toFinset_eq (ystar_nodup v) (List.nodup_dedup v) ?_
    ext x
    simp [List.mem_toFinset, List.mem_dedup, mem_ystar_iff]
  rw [nstar_eq_map_count]
  rw [(hperm.map (fun y => v.count y)).sum_eq]
  exact List.sum_map_count_dedup_eq_length v

/-- pdMatch of a value that occurs in ys is the index of a matching entry. -/
theorem pdMatch_of_mem (x : ℚ) :
    ∀ ys : List ℚ, x ∈ ys →
      ∃ k : ℕ, pdMatch x ys = (k : ℤ) ∧ k < ys.length ∧ ys.getD k 0 = x := by
  intro ys
  induction ys with
  | nil => intro h; exact absurd h (List.not_mem_nil x)
  | cons y t ih =>
    intro hx
    by_cases hyx : y = x
    · exact ⟨0, by simp [pdMatch, hyx], by simp, by simp [hyx]⟩
    · have hxt : x ∈ t := by
        rcases List.mem_cons.mp hx with h | h
        · exact absurd h.symm hyx
        · exact h
      obtain ⟨k, hk, hkl, hkv⟩ := ih hxt
      refine ⟨k + 1, ?_, by simp; omega, by simpa using hkv⟩
      simp only [pdMatch, if_neg hyx, hk]
      have : ((k : ℤ)) ≠ -1 := by omega
      rw [if_neg this]
      push_cast
      ring

/-- On a vector without duplicates, pdMatch returns each index itself. -/
theorem pdMatch_nodup (w : List ℚ) (hw : w.Nodup) :
    ∀ i, i < w.length → pdMatch (w.getD i 0) w = (i : ℤ) := by
  induction w with
  | nil => intro i hi; simp at hi
  | cons y t ih =>
    intro i hi
    match i with
    | 0 => simp [pdMatch]
    | i + 1 =>
      have hit : i < t.length := by simpa using hi
      have hmem : t.getD i 0 ∈ t := by
        rw [List.getD_eq_getElem _ _ hit]
        exact List.getElem_mem hit
      have hyne : y ≠ t.getD i 0 := by
        intro hEq
        exact (List.nodup_cons.mp hw).1 (hEq ▸ hmem)
      have ht : t.Nodup := (List.nodup_cons.mp hw).2
      have hrec := ih ht i hit
      simp only [pdMatch, List.getD_cons_succ, if_neg hyne, hrec]
      have h1 : ((i : ℤ)) ≠ -1 := by omega
      rw [if_neg h1]
      omega

/-- Entrywise description of gn: the group number of entry i is the pdMatch
position of its value inside ystar. -/
theorem gn_getD (v : List ℚ) (i : ℕ) (hi : i < v.length) :
    (gn v).getD i (-1) = pdMatch (v.getD i 0) (ystar v) := by
  have hlen : i < (gn v).length := by simpa [gn] using hi
  rw [List.getD_eq_getElem _ _ hlen, List.getD_eq_getElem _ _ hi]
  simp [gn]

/-- Each entry's group number points at the representative equal to the
entry's own value. -/
theorem gn_points_to_value (v : List ℚ) (i : ℕ) (hi : i < v.length) :
    0 ≤ (gn v).getD i (-1) ∧
      (ystar v).getD ((gn v).getD i (-1)).toNat 0 = v.getD i 0 := by
  have hmem : v.getD i 0 ∈ ystar v := by
    rw [mem_ystar_iff]
    rw [List.getD_eq_getElem _ _ hi]
    exact List.getElem_mem hi
  obtain ⟨k, hk, _, hkv⟩ := pdMatch_of_mem (v.getD i 0) (ystar v) hmem
  rw [gn_getD v i hi, hk]
  exact ⟨by omega, by simpa using hkv⟩

/-- Two entries receive the same group number exactly when their values are
exactly equal. -/
theorem gn_eq_iff (v : List ℚ) (i k : ℕ) (hi : i < v.length) (hk : k < v.length) :
    (gn v).getD i (-1) = (gn v).getD k (-1) ↔ v.getD i 0 = v.getD k 0 := by
  constructor
  · intro h
    have h1 := gn_points_to_value v i hi
    have h2 := gn_points_to_value v k hk
    rw [← h1.2, ← h2.2, h]
  · intro h
    rw [gn_getD v i hi, gn_getD v k hk, h]

/-- On a vector without duplicates every position is a representative. -/
theorem reps_nodup (w : List ℚ) (hw : w.Nodup) : reps w = List.range w.length := by
  rw [reps]
  rw [List.filter_eq_self]
  intro j hj
  have hjl : j < w.length := List.mem_range.mp hj
  refine (jstar_spec w j).mpr ⟨hjl, fun m hm hEq => ?_⟩
  have hml : m < w.length := by omega
  rw [List.getD_eq_getElem _ _ hml, List.getD_eq_getElem _ _ hjl] at hEq
  exact absurd (hw.getElem_inj_iff.mp hEq) (by omega)

/-- comp applied to a duplicate-free vector is the identity partition:
representatives are the vector itself, all counts are 1, and the group
numbers are 0,1,2,…. -/
theorem comp_identity_of_nodup (w : List ℚ) (hw : w.Nodup) :
    ystar w = w ∧ nstar w = List.replicate w.length 1 ∧
      gn w = (List.range w.length).map (fun (k : ℕ) => (k : ℤ)) := by
  have hystar : ystar w = w := by
    rw [ystar, reps_nodup w hw, map_getD_range]
  refine ⟨hystar, ?_, ?_⟩
  · rw [nstar_eq_map_count, hystar]
    have : ∀ y ∈ w, w.count y = 1 := fun y hy => List.count_eq_one_of_mem hw hy
    calc w.map (fun y => w.count y) = w.map (fun _ => 1) :=
          List.map_congr_left this
      _ = List.replicate w.length 1 := List.map_const' w 1
  · refine List.ext_getElem ?_ ?_
    · rw [gn, List.length_map, List.length_map, List.length_range]
    · intro n h1 h2
      have hn : n < w.length := by simpa [gn] using h1
      have hgd : w.getD n 0 = w[n] := List.getD_eq_getElem _ _ hn
      have hpm : pdMatch w[n] w = (n : ℤ) := by
        rw [← hgd]
        exact pdMatch_nodup w hw n hn
      simp [gn, hystar, hpm]

/-- Claim C4: for every input vector, the Partition Utility comp returns
representatives with pairwise-distinct values, per-representative counts that
sum to the vector's length, a group label per entry pointing at the
representative equal to the entry's own value, and re-applying comp to the
vector of representative values yields the identity partition (every entry
its own singleton group, in order). -/
theorem claim_C4_partition_utility (v : List ℚ) :
    (ystar v).Nodup ∧
    (nstar v).sum = v.length ∧
    (∀ i, i < v.length →
      0 ≤ (gn v).getD i (-1) ∧
        (ystar v).getD ((gn v).getD i (-1)).toNat 0 = v.getD i 0) ∧
    ystar (ystar v) = ystar v ∧
    nstar (ystar v) = List.replicate (rstar v) 1 ∧
    gn (ystar v) = (List.range (rstar v)).map (fun (k : ℕ) => (k : ℤ)) := by
  have hrstar : rstar v = (ystar v).length := by
    simp [rstar, nstar, ystar]
  obtain ⟨h1, h2, h3⟩ := comp_identity_of_nodup (ystar v) (ystar_nodup v)
  exact ⟨ystar_nodup v, nstar_sum v,
    fun i hi => gn_points_to_value v i hi,
    h1, by rw [hrstar]; exact h2, by rw [hrstar]; exact h3⟩

/-- Witness for claim C4 at the concrete vector [3, 1, 3, 2]. -/
theorem claim_C4_partition_utility_witness :
    (nstar [(3 : ℚ), 1, 3, 2]).sum = 4 ∧
      0 ≤ (gn [(3 : ℚ), 1, 3, 2]).getD 0 (-1) := by
  refine ⟨(claim_C4_partition_utility [(3 : ℚ), 1, 3, 2]).2.1, ?_⟩
  exact ((claim_C4_partition_utility [(3 : ℚ), 1, 3, 2]).2.2.1 0 (by norm_num)).1

/-! ## Partition computations inside one sampling iteration (tseriescm.py)

The latent state gamma is a (d+T) x n matrix, modelled as its list of rows.
Three places in the iteration run the Partition Utility on a row of gamma:
line 255 (membership step, on row 0 with series i removed), line 377 (start
of the acceleration step, on row 0) and line 463 (after the acceleration
redraws, on row 1). -/

/-- tseriescm.py line 255: comp(np.delete(gamma[0,:], i)) — the group
numbers of the remaining n-1 series, from row 0 of gamma with entry i
removed. -/
def membershipGn (gamma : List (List ℚ)) (i : ℕ) : List ℤ :=
  gn ((gamma.getD 0 []).eraseIdx i)

/-- tseriescm.py line 377: comp(gamma[0,:]) — the partition at the start of
the acceleration step, from row 0 of gamma. -/
def accelStartGn (gamma : List (List ℚ)) : List ℤ :=
  gn (gamma.getD 0 [])

/-- tseriescm.py line 463: comp(gamma[1,:]) — the partition recomputed after
the acceleration redraws, from row index 1 of gamma. -/
def accelRecompGn (gamma : List (List ℚ)) : List ℤ :=
  gn (gamma.getD 1 [])

/-- Counterexample to claim C7: for the gamma matrix [[0,0],[1,2]] the
partition recomputed after the acceleration redraws (tseriescm.py line 463)
is computed from row 1 and differs from the Partition Utility applied to
row 0, contradicting the claim that every partition of the iteration comes
from gamma's first row. -/
theorem claim_C7_counterexample :
    accelRecompGn [[(0 : ℚ), 0], [1, 2]] = [0, 1] ∧
      gn (([[(0 : ℚ), 0], [1, 2]]).getD 0 []) = [0, 0] ∧
      accelRecompGn [[(0 : ℚ), 0], [1, 2]] ≠
        gn (([[(0 : ℚ), 0], [1, 2]]).getD 0 []) := by
  refine ⟨by decide, by decide, by decide⟩

/-- Claim C7 (amended): the Partition Utility groups two entries together
exactly when their values coincide; the membership-step partition and the
start-of-acceleration partition are comp of row 0 of gamma (the former with
series i removed), while the partition recomputed after the acceleration
redraws is comp of row index 1. -/
theorem claim_C7_amended :
    (∀ (v : List ℚ) (i k : ℕ), i < v.length → k < v.length →
      ((gn v).getD i (-1) = (gn v).getD k (-1) ↔ v.getD i 0 = v.getD k 0)) ∧
    (∀ (gamma : List (List ℚ)),
      accelStartGn gamma = gn (gamma.getD 0 []) ∧
      accelRecompGn gamma = gn (gamma.getD 1 []) ∧
      ∀ i, membershipGn gamma i = gn ((gamma.getD 0 []).eraseIdx i)) :=
  ⟨fun v i k hi hk => gn_eq_iff v i k hi hk,
   fun _ => ⟨rfl, rfl, fun _ => rfl⟩⟩

/-- Witness for the amended claim C7 at the vector [1,1] and indices 0, 1. -/
theorem claim_C7_amended_witness :
    (gn [(1 : ℚ), 1]).getD 0 (-1) = (gn [(1 : ℚ), 1]).getD 1 (-1) :=
  (claim_C7_amended.1 [(1 : ℚ), 1] 0 1 (by norm_num) (by norm_num)).mpr rfl

/-! ## Cluster-membership weights (tseriescm.py lines 285-346)

The three covariate configurations correspond to level+trend+seasonality
equal to 0 (only non-clustered covariates), equal to 3 (only clustered
covariates) and mixed.  The Gaussian density values are strictly positive
reals whose exact value is irrelevant to the claim, so they enter the
embedding as inputs: dExist j is the density of series i's data under
cluster j's shared parameter with series-i noise, dNew the marginal density
for a fresh cluster.  mi is the number of existing clusters (nstar.length). -/

/-- The three mutually exclusive covariate configurations of tseriescm.py. -/
inductive Config
  | onlyUnclustered
  | onlyClustered
  | mixed
deriving DecidableEq

/-- The vector dj of existing-cluster weights.  In the onlyUnclustered
configuration tseriescm.py line 292 reads dj[j] <- (nstar[j]-a)*pdf(...),
which in Python is a comparison with no effect, so dj keeps its
initialization np.zeros(mi); the other two configurations (lines 313 and
334) assign (nstar[j]-a)*pdf(...) normally. -/
def djWeights (cfg : Config) (a : ℚ) (nstar0 : List ℕ) (dExist : List ℚ) : List ℚ :=
  match cfg with
  | Config.onlyUnclustered => List.replicate nstar0.length 0
  | _ => (nstar0.zip dExist).map (fun nd => ((nd.1 : ℚ) - a) * nd.2)

/-- The normalized categorical weights q over the mi existing clusters
followed by the new-cluster option, from tseriescm.py lines 285-346:
d0 = (b + a*mi)*dNew, den = d0 + sum(dj), q = dj/den ++ [d0/den].  When den
is exactly zero every configuration's log-space fallback crashes on a
malformed np.concatenate call (lines 299, 320 and 341 concatenate a
0-dimensional scalar), modelled as none. -/
def membershipQ (cfg : Config) (a b : ℚ) (nstar0 : List ℕ) (dExist : List ℚ)
    (dNew : ℚ) : Option (List ℚ) :=
  let mi := nstar0.length
  let dj := djWeights cfg a nstar0 dExist
  let d0 := (b + a * (mi : ℚ)) * dNew
  let den := d0 + dj.sum
  if den = 0 then none
  else some (dj.map (· / den) ++ [d0 / den])

/-- Claim C1 is contradicted by the code in the onlyUnclustered
configuration: with a = 1/4, b = 0, one existing cluster of size 2, density
5 at the existing cluster and marginal density 1, the claim prescribes the
unnormalized weight (2 - 1/4)*5 = 35/4 ≠ 0 for joining the cluster, but the
code's weight vector is [0, 1]: all mass goes to the new cluster.  The same
inputs in the onlyClustered configuration produce the claimed normalized
weights [35/36, 1/36]. -/
theorem claim_C1_weights_config0_bug :
    membershipQ Config.onlyUnclustered (1/4) 0 [2] [5] 1 = some [0, 1] ∧
    membershipQ Config.onlyClustered (1/4) 0 [2] [5] 1 =
      some [35/36, 1/36] ∧
    ((2 : ℚ) - 1/4) * 5 ≠ 0 := by
  refine ⟨?_, ?_, by norm_num⟩
  · norm_num [membershipQ, djWeights]
  · norm_num [membershipQ, djWeights]

/-! ## Similarity-matrix accumulation (tseriescm.py lines 450-456 and 642)

The update of the similarities matrix sim is guarded at line 450 by
`(iter0 % thinning == 0) & iter0 >= burnin`, which by Python operator
precedence parses as `((iter0 % thinning == 0) & iter0) >= burnin`: the
boolean is coerced to the integer 0/1 and bitwise-anded with iter0.  The
trace checkpoint at line 642 uses the correctly parenthesized condition
`(iter0 % thinning == 0) & (iter0 >= burnin)`.  Inside the guarded block
the loops `for i1 in range(0,nstar[j]): for i2 in range(i1,nstar[j])`
include the pair i1 = i2, so both mirrored statements hit the same diagonal
cell.  Per-iteration partitions enter the model as the input clustersAt,
listing for each iteration the member indices of each cluster. -/

/-- tseriescm.py line 450 as Python parses it:
((iter0 % thinning == 0) & iter0) >= burnin. -/
def simCond (iter0 thinning burnin : ℕ) : Bool :=
  burnin ≤ ((if iter0 % thinning = 0 then 1 else 0) &&& iter0)

/-- tseriescm.py line 642: (iter0 % thinning == 0) & (iter0 >= burnin). -/
def saveCond (iter0 thinning burnin : ℕ) : Bool :=
  (iter0 % thinning = 0) && (burnin ≤ iter0)

/-- One increment sim[x,y] = sim[x,y] + 1 of the similarities matrix. -/
def bumpSim (sim : ℕ → ℕ → ℕ) (x y : ℕ) : ℕ → ℕ → ℕ :=
  fun u v => if u = x ∧ v = y then sim u v + 1 else sim u v

/-- The index pairs visited by the loops of tseriescm.py lines 451-452:
i1 in range(0,s), i2 in range(i1,s). -/
def simPairs (s : ℕ) : List (ℕ × ℕ) :=
  (List.range s).flatMap (fun i1 => ((List.range s).drop i1).map (fun i2 => (i1, i2)))

/-- The two mirrored increments of lines 453-454 for every visited pair of
positions inside one cluster cc (cc lists the member indices of the
cluster, i.e. np.where(gn == j)). -/
def simCluster (cc : List ℕ) (sim : ℕ → ℕ → ℕ) : ℕ → ℕ → ℕ :=
  (simPairs cc.length).foldl
    (fun s p => bumpSim (bumpSim s (cc.getD p.1 0) (cc.getD p.2 0))
      (cc.getD p.2 0) (cc.getD p.1 0)) sim

/-- The per-iteration similarity update: lines 450-454 executed for every
cluster j of the current partition. -/
def simIter (clusters : List (List ℕ)) (sim : ℕ → ℕ → ℕ) : ℕ → ℕ → ℕ :=
  clusters.foldl (fun s cc => simCluster cc s) sim

/-- The whole sampling loop restricted to the two accumulators of claim C2:
the similarities matrix (updated under simCond) and the saved-iteration
counter iter1 (updated under saveCond, line 643). -/
def runSim (clustersAt : ℕ → List (List ℕ)) (maxiter burnin thinning : ℕ) :
    (ℕ → ℕ → ℕ) × ℕ :=
  (List.range maxiter).foldl
    (fun st iter0 =>
      (if simCond iter0 thinning burnin then simIter (clustersAt iter0) st.1 else st.1,
       if saveCond iter0 thinning burnin then st.2 + 1 else st.2))
    (fun _ _ => 0, 0)

/-- Claim C2 is contradicted by the code: with maxiter = 2, burnin = 1,
thinning = 1 and a single series forming one cluster every iteration, the
run saves one iteration but the diagonal entry of the similarities matrix
ends at 2 (the pair loop starts at i2 = i1, so both mirrored statements hit
the diagonal cell), hence after normalization the entry is 2 ∉ [0,1].
Moreover the guard of line 450 differs from the past-burn-in-and-aligned
condition of line 642 (at iter0 = 2 the latter holds and the former does
not), and for any burnin ≥ 2 the similarities matrix is never incremented
at all. -/
theorem claim_C2_similarity_bug :
    (runSim (fun _ => [[0]]) 2 1 1).2 = 1 ∧
    (runSim (fun _ => [[0]]) 2 1 1).1 0 0 = 2 ∧
    simCond 2 1 1 = false ∧ saveCond 2 1 1 = true ∧
    (∀ iter0 thinning burnin, 2 ≤ burnin → simCond iter0 thinning burnin = false) := by
  refine ⟨by decide, by decide, by decide, by decide, ?_⟩
  intro iter0 thinning burnin hb
  have hle : ((if iter0 % thinning = 0 then 1 else 0) &&& iter0) ≤ 1 := by
    rcases Nat.decEq (iter0 % thinning) 0 with h | h
    all_goals simp only [if_pos, if_neg, h]
    · simp
    · exact le_trans Nat.and_le_left (le_refl 1)
  rw [simCond]
  simp only [decide_eq_false_iff_not]
  omega

/-- Witness for claim C2's universally quantified part at burnin = 2. -/
theorem claim_C2_similarity_bug_witness : simCond 5 1 2 = false :=
  claim_C2_similarity_bug.2.2.2.2 5 1 2 (by norm_num)

/-! ## Trace allocation and checkpoint count (tseriescm.py lines 187-199, 642-658) -/

/-- tseriescm.py line 190: the allocated trace length
CL = math.floor((maxiter-burnin)/thinning) (validation guarantees
thinning ≥ 1, so the thinning == 0 branch of line 188 is dead). -/
def CL (maxiter burnin thinning : ℕ) : ℕ :=
  (maxiter - burnin) / thinning

/-- The iterations at which line 642's condition
(iter0 % thinning == 0) & (iter0 >= burnin) holds during the loop
iter0 = 0 .. maxiter-1; a snapshot of the partition and every
hyperparameter is written at exactly these iterations (lines 643-658). -/
def saveIters (maxiter burnin thinning : ℕ) : List ℕ :=
  (List.range maxiter).filter (fun k => saveCond k thinning burnin)

/-- The total number of snapshot writes attempted during the run. -/
def savedCount (maxiter burnin thinning : ℕ) : ℕ :=
  (saveIters maxiter burnin thinning).length

/-- Claim C3 is contradicted by the code at the valid configuration
maxiter = 11, burnin = 5, thinning = 5: snapshots are attempted at
iter0 = 5 and iter0 = 10, so 2 snapshots, while the allocated trace length
is CL = floor((11-5)/5) = 1; the second write (row index iter1-1 = 1 of
arrays with CL = 1 rows) is out of bounds and raises IndexError. -/
theorem claim_C3_trace_overflow :
    saveIters 11 5 5 = [5, 10] ∧ savedCount 11 5 5 = 2 ∧
      CL 11 5 5 = 1 ∧ CL 11 5 5 < savedCount 11 5 5 := by
  refine ⟨by decide, by decide, by decide, by decide⟩

/-! ## Metropolis-Hastings acceptance rules (tseriescm.py lines 547-553,
601-606, 633-638)

Each decision consumes one uniform variate; logu is its logarithm (any
negative real, since the variate lies in [0,1)) and the log-acceptance
ratio (quot, quot1, quot2) enters as an unconstrained input. -/

/-- tseriescm.py lines 547/553 (rho step): quot = min(0,q); accept iff
log(unif1) <= quot. -/
def rhoAccept (logu q : ℚ) : Bool :=
  logu ≤ min 0 q

/-- tseriescm.py lines 601/606 (a step): alphamh1 = min(quot1,0); accept
iff log(unif3) == alphamh1 — exact equality, not <=. -/
def aAcceptCode (logu quot1 : ℚ) : Bool :=
  logu == min quot1 0

/-- The acceptance rule claim C5 prescribes for the a step (the rule used
by every other MH step of the sampler): accept iff log(unif3) <= min(quot1,0). -/
def aAcceptClaim (logu quot1 : ℚ) : Bool :=
  logu ≤ min quot1 0

/-- tseriescm.py lines 633/638 (b step): alphamh2 = min(quot2,0); accept
iff log(unif4) <= alphamh2. -/
def bAccept (logu quot2 : ℚ) : Bool :=
  logu ≤ min quot2 0

/-- Claim C5 is contradicted by the code: at log(unif3) = -1 and
quot1 = 0 the claimed rule (and the rule of the rho and b steps at the same
inputs) accepts, but line 606's == test rejects, so the chain keeps its
current value of a even though log(unif3) < min(quot1, 0). -/
theorem claim_C5_a_step_equality_bug :
    aAcceptCode (-1) 0 = false ∧ aAcceptClaim (-1) 0 = true ∧
      rhoAccept (-1) 0 = true ∧ bAccept (-1) 0 = true := by
  refine ⟨?_, ?_, ?_, ?_⟩ <;> norm_num [aAcceptCode, aAcceptClaim, rhoAccept, bAccept]

/-! ## Hyperparameter updates of a, b and rho (tseriescm.py lines 527-554,
563-608, 610-640)

The steps are embedded as state-update functions whose random inputs are
the proposal and the logarithm of the decision variate; the log-acceptance
ratios (quot1, quot2, q) involve gamma functions and densities of the real
state and enter as unconstrained inputs.  Proposal supports: in the a step,
amh ~ Uniform(-b,1) when b < 0 and amh ∈ {0} ∪ Uniform(0,1) otherwise
(numpy.random.uniform samples from the half-open interval [low, high)); in
the b step y1 ~ 1 + Gamma(1, scale 10) > 0 and bmh = y1 - a; in the rho
step rhomh ~ Uniform(-1,1), and a completed step has rhomh ∈ (-1,1) because
scipy.linalg.cholesky(Pmh) raises on the singular correlation matrix built
from rhomh = -1. -/

/-- The a step, lines 563-608: if a+b <= 0 the proposal is taken directly
(line 575); otherwise it is taken exactly when log(unif3) == min(quot1,0)
(line 606). -/
def aStep (a b amh quot1 logu3 : ℚ) : ℚ :=
  if a + b ≤ 0 then amh
  else if aAcceptCode logu3 quot1 then amh else a

/-- The b step, lines 610-640: bmh = y1 - a; if a+b <= 0 the proposal is
taken directly (line 616); otherwise when log(unif4) <= min(quot2,0). -/
def bStep (a b y1 quot2 logu4 : ℚ) : ℚ :=
  if a + b ≤ 0 then y1 - a
  else if bAccept logu4 quot2 then y1 - a else b

/-- The rho step, lines 527-554: the proposal rhomh replaces rho exactly
when log(unif1) <= min(0,q). -/
def rhoStep (rho rhomh q logu1 : ℚ) : ℚ :=
  if rhoAccept logu1 q then rhomh else rho

/-- Counterexample to claim C6: from the validation-accepted state a = 1/4,
b = 0 (b > -a holds), the a step with the in-support proposal amh = 0
(the coin branch of line 570), log-ratio quot1 = -1 and decision variate
log(unif3) = -1 accepts, and the new state has a = 0 and b = 0, violating
b > -a. -/
theorem claim_C6_counterexample :
    (0 ≤ (1/4 : ℚ) ∧ (1/4 : ℚ) < 1 ∧ -(1/4 : ℚ) < 0) ∧
      aStep (1/4) 0 0 (-1) (-1) = 0 ∧
      ¬(-(aStep (1/4) 0 0 (-1) (-1)) < 0) := by
  have hstep : aStep (1/4) 0 0 (-1) (-1) = 0 := by
    norm_num [aStep, aAcceptCode]
  refine ⟨by norm_num, hstep, by rw [hstep]; norm_num⟩

/-- Claim C6 (amended): throughout the loop a stays in [0,1) and rho stays
in (-1,1), and b ≥ -a is an invariant of every step; strictness of b > -a
is what the counterexample refutes — it can be lost when an accepted a
proposal sits on the boundary of its support (amh = -b, or amh = 0 while
b = 0), and the b step restores b > -a strictly. -/
theorem claim_C6_amended :
    (∀ a b amh quot1 logu3 : ℚ,
      0 ≤ a → a < 1 → -a ≤ b →
      ((b < 0 → -b ≤ amh ∧ amh < 1) ∧
        (0 ≤ b → amh = 0 ∨ (0 ≤ amh ∧ amh < 1))) →
      0 ≤ aStep a b amh quot1 logu3 ∧ aStep a b amh quot1 logu3 < 1 ∧
        -(aStep a b amh quot1 logu3) ≤ b) ∧
    (∀ a b y1 quot2 logu4 : ℚ,
      0 < y1 → -a ≤ b → -a ≤ bStep a b y1 quot2 logu4) ∧
    (∀ rho rhomh q logu1 : ℚ,
      -1 < rho → rho < 1 → -1 < rhomh → rhomh < 1 →
      -1 < rhoStep rho rhomh q logu1 ∧ rhoStep rho rhomh q logu1 < 1) := by
  refine ⟨?_, ?_, ?_⟩
  · intro a b amh quot1 logu3 ha0 ha1 hab ⟨hneg, hpos⟩
    have hamh : 0 ≤ amh ∧ amh < 1 ∧ -amh ≤ b := by
      rcases lt_or_le b 0 with hb | hb
      · obtain ⟨h1, h2⟩ := hneg hb
        exact ⟨by linarith, h2, by linarith⟩
      · rcases hpos hb with h | ⟨h1, h2⟩
        · subst h; exact ⟨le_refl 0, by norm_num, by linarith⟩
        · exact ⟨h1, h2, by linarith⟩
    rw [aStep]
    rcases le_or_lt (a + b) 0 with h | h
    · rw [if_pos h]
      exact ⟨hamh.1, hamh.2.1, hamh.2.2⟩
    · rw [if_neg (by linarith)]
      by_cases hacc : aAcceptCode logu3 quot1 = true
      · rw [if_pos hacc]
        exact ⟨hamh.1, hamh.2.1, hamh.2.2⟩
      · rw [if_neg hacc]
        exact ⟨ha0, ha1, hab⟩
  · intro a b y1 quot2 logu4 hy hab
    rw [bStep]
    rcases le_or_lt (a + b) 0 with h | h
    · rw [if_pos h]; linarith
    · rw [if_neg (by linarith)]
      by_cases hacc : bAccept logu4 quot2 = true
      · rw [if_pos hacc]; linarith
      · rw [if_neg hacc]; exact hab
  · intro rho rhomh q logu1 h1 h2 h3 h4
    rw [rhoStep]
    by_cases hacc : rhoAccept logu1 q = true
    · rw [if_pos hacc]; exact ⟨h3, h4⟩
    · rw [if_neg hacc]; exact ⟨h1, h2⟩

/-- Witness for the amended claim C6 with concrete in-support inputs to the
three steps. -/
theorem claim_C6_amended_witness :
    (0 ≤ aStep (1/4) 0 (1/2) (-1) (-2) ∧ aStep (1/4) 0 (1/2) (-1) (-2) < 1 ∧
      -(aStep (1/4) 0 (1/2) (-1) (-2)) ≤ 0) ∧
    -(1/4 : ℚ) ≤ bStep (1/4) 0 2 0 (-1) ∧
    (-1 < rhoStep 0 (1/2) 0 (-1) ∧ rhoStep 0 (1/2) 0 (-1) < 1) := by
  refine ⟨?_, ?_, ?_⟩
  · exact claim_C6_amended.1 (1/4) 0 (1/2) (-1) (-2) (by norm_num) (by norm_num)
      (by norm_num) ⟨fun h => absurd h (by norm_num), fun _ => Or.inr ⟨by norm_num, by norm_num⟩⟩
  · exact claim_C6_amended.2.1 (1/4) 0 2 0 (-1) (by norm_num) (by norm_num)
  · exact claim_C6_amended.2.2 0 (1/2) 0 (-1) (by norm_num) (by norm_num)
      (by norm_num) (by norm_num)

/-! ## Heterogeneity Measure (tseriescm.py lines 736-747)

The data matrix enters column-wise: data is the list of the n series, each
a list of T scaled values; gnstar is the point-estimate group label per
series and mstar the number of groups. -/

/-- The squared Euclidean distance sum((x - y)**2) of line 746. -/
def sqDist (x y : List ℚ) : ℚ :=
  ((x.zip y).map (fun p => (p.1 - p.2) ^ 2)).sum

/-- np.where(gnstar == j)[0] of line 740: the member indices of group j. -/
def clusterMembers (gnstar : List ℕ) (j : ℕ) : List ℕ :=
  (List.range gnstar.length).filter (fun i => gnstar.getD i 0 == j)

/-- The double loop of lines 744-746: HM1 accumulates the squared distances
over position pairs i2 < i1 of the member list cc. -/
def HM1 (data : List (List ℚ)) (cc : List ℕ) : ℚ :=
  ((List.range cc.length).map (fun i1 =>
    ((List.range i1).map (fun i2 =>
      sqDist (data.getD (cc.getD i2 0) []) (data.getD (cc.getD i1 0) []))).sum)).sum

/-- The Heterogeneity Measure of lines 737-747: every group with more than
one member contributes (2/(size-1)) * HM1. -/
def HM (mstar : ℕ) (gnstar : List ℕ) (data : List (List ℚ)) : ℚ :=
  ((List.range mstar).map (fun j =>
    if 1 < (clusterMembers gnstar j).length then
      (2 / (((clusterMembers gnstar j).length : ℚ) - 1)) *
        HM1 data (clusterMembers gnstar j)
    else 0)).sum

/-- Sum of g over the unordered pairs of elements of a list, visiting each
earlier-later pair once. -/
def pairAcc (g : ℕ → ℕ → ℚ) : List ℕ → ℚ
  | [] => 0
  | x :: xs => (xs.map (fun y => g x y)).sum + pairAcc g xs

/-- Modelled from the spec: the Heterogeneity Measure as §4.5 words it —
for each cluster with more than one member, the sum over all unordered
member pairs of the squared Euclidean distance between the two members'
scaled series (written as half the sum over ordered distinct member
pairs), weighted by 2/(size-1). -/
def specHM (mstar : ℕ) (gnstar : List ℕ) (data : List (List ℚ)) : ℚ :=
  ((List.range mstar).map (fun j =>
    if 1 < (clusterMembers gnstar j).length then
      (2 / (((clusterMembers gnstar j).length : ℚ) - 1)) *
        ((1/2) * (((clusterMembers gnstar j).map (fun u =>
          ((clusterMembers gnstar j).map (fun v =>
            if v = u then 0 else
              sqDist (data.getD u []) (data.getD v []))).sum)).sum))
    else 0)).sum

/-- The squared Euclidean distance is symmetric in its two arguments. -/
theorem sqDist_comm (x y : List ℚ) : sqDist x y = sqDist y x := by
  induction x generalizing y with
  | nil => cases y <;> simp [sqDist]
  | cons a xs ih =>
    cases y with
    | nil => simp [sqDist]
    | cons b ys =>
      simp only [sqDist, List.zip_cons_cons, List.map_cons, List.sum_cons]
      have := ih ys
      simp only [sqDist] at this
      rw [this]
      ring_nf

/-- The squared Euclidean distance is nonnegative. -/
theorem sqDist_nonneg (x y : List ℚ) : 0 ≤ sqDist x y := by
  refine List.sum_nonneg ?_
  intro z hz
  obtain ⟨p, _, hp⟩ := List.mem_map.mp hz
  rw [← hp]
  positivity

/-- Composing an entrywise getD read over the index range with any function
is the plain map of that function. -/
theorem map_comp_getD_range (xs : List ℕ) (f : ℕ → ℚ) :
    (List.range xs.length).map (fun i => f (xs.getD i 0)) = xs.map f := by
  induction xs with
  | nil => simp
  | cons x t ih =>
    simp only [List.length_cons, List.range_succ_eq_map, List.map_cons,
      List.map_map, List.getD_cons_zero]
    refine congrArg (f x :: ·) ?_
    have hfun : ((fun i => f ((x :: t).getD i 0)) ∘ Nat.succ) =
        (fun i => f (t.getD i 0)) := by
      funext i
      simp [List.getD]
    rw [hfun, ih]

/-- The triangular position loop of HM1 accumulates exactly the
earlier-later pairs of the member list. -/
theorem HM1_eq_pairAcc (data : List (List ℚ)) (cc : List ℕ) :
    HM1 data cc = pairAcc (fun u v => sqDist (data.getD u []) (data.getD v [])) cc := by
  induction cc with
  | nil => simp [HM1, pairAcc]
  | cons x xs ih =>
    simp only [pairAcc]
    rw [← ih]
    simp only [HM1, List.length_cons, List.range_succ_eq_map, List.map_cons,
      List.range_zero, List.map_nil, List.sum_nil, List.sum_cons, List.map_map]
    rw [zero_add]
    have hterm : ∀ i1 : ℕ,
        ((List.range (Nat.succ i1)).map (fun i2 =>
          sqDist (data.getD ((x :: xs).getD i2 0) [])
            (data.getD ((x :: xs).getD (Nat.succ i1) 0) []))).sum =
        sqDist (data.getD x []) (data.getD (xs.getD i1 0) []) +
          ((List.range i1).map (fun i2 =>
            sqDist (data.getD (xs.getD i2 0) []) (data.getD (xs.getD i1 0) []))).sum := by
      intro i1
      simp only [List.range_succ_eq_map, List.map_cons, List.sum_cons,
        List.map_map, List.getD_cons_zero, List.getD_cons_succ]
      refine congrArg (_ + ·) ?_
      refine congrArg List.sum ?_
      refine List.map_congr_left ?_
      intro i2 _
      simp [List.getD]
    have hmap : ((List.range xs.length).map ((fun i1 =>
        ((List.range i1).map (fun i2 =>
          sqDist (data.getD ((x :: xs).getD i2 0) [])
            (data.getD ((x :: xs).getD i1 0) []))).sum) ∘ Nat.succ)) =
        ((List.range xs.length).map (fun i1 =>
          sqDist (data.getD x []) (data.getD (xs.getD i1 0) []) +
          ((List.range i1).map (fun i2 =>
            sqDist (data.getD (xs.getD i2 0) []) (data.getD (xs.getD i1 0) []))).sum)) := by
      refine List.map_congr_left ?_
      intro i1 _
      exact hterm i1
    rw [hmap, List.sum_map_add]
    rw [map_comp_getD_range xs (fun y => sqDist (data.getD x []) (data.getD y []))]

/-- For a symmetric pair function on a duplicate-free list, twice the
unordered-pair sum is the full sum over ordered distinct pairs. -/
theorem pairAcc_symm (g : ℕ → ℕ → ℚ) (hg : ∀ u v, g u v = g v u) :
    ∀ cc : List ℕ, cc.Nodup →
      2 * pairAcc g cc =
        (cc.map (fun u => (cc.map (fun v => if v = u then 0 else g u v)).sum)).sum := by
  intro cc
  induction cc with
  | nil => intro _; simp [pairAcc]
  | cons x xs ih =>
    intro hnd
    obtain ⟨hx, hxs⟩ := List.nodup_cons.mp hnd
    have h1 : ((x :: xs).map (fun v => if v = x then 0 else g x v)).sum =
        (xs.map (fun v => g x v)).sum := by
      simp only [List.map_cons, List.sum_cons]
      rw [if_pos trivial, zero_add]
      refine congrArg List.sum (List.map_congr_left ?_)
      intro v hv
      rw [if_neg (by intro h; subst h; exact hx hv)]
    have h2 : (xs.map (fun u =>
        ((x :: xs).map (fun v => if v = u then 0 else g u v)).sum)).sum =
        (xs.map (fun u => g u x)).sum +
          (xs.map (fun u => (xs.map (fun v => if v = u then 0 else g u v)).sum)).sum := by
      rw [← List.sum_map_add]
      refine congrArg List.sum (List.map_congr_left ?_)
      intro u hu
      simp only [List.map_cons, List.sum_cons]
      rw [if_neg (by intro h; subst h; exact hx hu)]
    have h3 : (xs.map (fun u => g u x)).sum = (xs.map (fun v => g x v)).sum := by
      refine congrArg List.sum (List.map_congr_left ?_)
      intro u _
      exact hg u x
    have h4 := ih hxs
    have hstep : pairAcc g (x :: xs) = (xs.map (fun y => g x y)).sum + pairAcc g xs := rfl
    rw [hstep, List.map_cons, List.sum_cons, h1, h2, h3]
    linarith

/-- The member lists produced by clusterMembers have no duplicates. -/
theorem clusterMembers_nodup (gnstar : List ℕ) (j : ℕ) :
    (clusterMembers gnstar j).Nodup :=
  (List.nodup_range _).filter _

/-- A duplicate-free list all of whose entries coincide has at most one
entry. -/
theorem length_le_one_of_allEq (j : ℕ) {l : List ℕ} (hnd : l.Nodup)
    (hall : ∀ x ∈ l, x = j) : l.length ≤ 1 := by
  match l, hnd, hall with
  | [], _, _ => simp
  | [x], _, _ => simp
  | x :: y :: t, hnd', hall' =>
    exfalso
    have hx1 : x = j := hall' x (by simp)
    have hy1 : y = j := hall' y (by simp)
    have hmem : x ∈ y :: t := by
      rw [hx1.trans hy1.symm]
      exact List.mem_cons_self y t
    exact (List.nodup_cons.mp hnd').1 hmem

/-- Under the identity labelling 0,1,…,n-1 every group has at most one
member. -/
theorem clusterMembers_range_le_one (n j : ℕ) :
    (clusterMembers (List.range n) j).length ≤ 1 := by
  refine length_le_one_of_allEq j (clusterMembers_nodup _ _) ?_
  intro x hx
  have h1 := List.mem_filter.mp hx
  have hxr : x < n := by
    have := List.mem_range.mp h1.1
    simpa using this
  have h2 := h1.2
  rw [List.getD_eq_getElem _ _ (by simpa using hxr)] at h2
  rw [List.getElem_range] at h2
  simpa using h2

/-- Claim C8: the Heterogeneity Measure equals the spec's formula (sum over
clusters of size > 1 of 2/(size-1) times the sum over unordered member pairs
of the squared Euclidean distance of the members' series); it is
nonnegative for every partition and data matrix, and it is 0 for the
all-singleton partition. -/
theorem claim_C8_heterogeneity_measure (mstar : ℕ) (gnstar : List ℕ)
    (data : List (List ℚ)) :
    HM mstar gnstar data = specHM mstar gnstar data ∧
    0 ≤ HM mstar gnstar data ∧
    (∀ n : ℕ, HM mstar (List.range n) data = 0) := by
  refine ⟨?_, ?_, ?_⟩
  · rw [HM, specHM]
    refine congrArg List.sum (List.map_congr_left ?_)
    intro j _
    by_cases hlen : 1 < (clusterMembers gnstar j).length
    · rw [if_pos hlen, if_pos hlen]
      have h2 := pairAcc_symm
        (fun u v => sqDist (data.getD u []) (data.getD v []))
        (fun u v => sqDist_comm _ _) (clusterMembers gnstar j)
        (clusterMembers_nodup gnstar j)
      rw [HM1_eq_pairAcc]
      have h3 : pairAcc (fun u v => sqDist (data.getD u []) (data.getD v []))
          (clusterMembers gnstar j) =
          (1/2) * (((clusterMembers gnstar j).map (fun u =>
            ((clusterMembers gnstar j).map (fun v =>
              if v = u then 0 else
                sqDist (data.getD u []) (data.getD v []))).sum)).sum) := by
        linarith
      rw [h3]
    · rw [if_neg hlen, if_neg hlen]
  · rw [HM]
    refine List.sum_nonneg ?_
    intro z hz
    obtain ⟨j, _, hj⟩ := List.mem_map.mp hz
    rw [← hj]
    by_cases hlen : 1 < (clusterMembers gnstar j).length
    · rw [if_pos hlen]
      have hHM1 : 0 ≤ HM1 data (clusterMembers gnstar j) := by
        rw [HM1]
        refine List.sum_nonneg ?_
        intro w hw
        obtain ⟨i1, _, hi1⟩ := List.mem_map.mp hw
        rw [← hi1]
        refine List.sum_nonneg ?_
        intro w2 hw2
        obtain ⟨i2, _, hi2⟩ := List.mem_map.mp hw2
        rw [← hi2]
        exact sqDist_nonneg _ _
      have hcoef : 0 ≤ 2 / (((clusterMembers gnstar j).length : ℚ) - 1) := by
        have h2 : (2 : ℚ) ≤ ((clusterMembers gnstar j).length : ℚ) := by
          exact_mod_cast hlen
        have : (0 : ℚ) < ((clusterMembers gnstar j).length : ℚ) - 1 := by linarith
        positivity
      exact mul_nonneg hcoef hHM1
    · rw [if_neg hlen]
  · intro n
    rw [HM]
    refine List.sum_eq_zero ?_
    intro z hz
    obtain ⟨j, _, hj⟩ := List.mem_map.mp hz
    rw [← hj]
    rw [if_neg (by have := clusterMembers_range_le_one n j; omega)]

/-! ## Scaler (scaleandperiods.py)

The data frame enters column-wise: cols lists the series, each a list of
its values over time. -/

/-- Maximum of a list as computed by Python's max over a nonempty sequence
(0 as a never-used placeholder for the empty list). -/
def listMax : List ℚ → ℚ
  | [] => 0
  | x :: xs => xs.foldl max x

/-- Minimum of a list, as listMax. -/
def listMin : List ℚ → ℚ
  | [] => 0
  | x :: xs => xs.foldl min x

/-- scaleandperiods.py line 52: every entry becomes
1 + (1/(max-min))*(x - max). -/
def scaleColumn (c : List ℚ) : List ℚ :=
  c.map (fun x => 1 + (1 / (listMax c - listMin c)) * (x - listMax c))

/-- scaleandperiods.py lines 23-54: cts collects the indices of constant
columns (maxima == minima, line 35).  When cts is nonempty the code runs
mydata = mydata.drop(index=cts, inplace=True), which returns None (and
would drop rows, not columns), so the following len(mydata) raises
TypeError: the constant-column branch never returns, modelled as none.
Otherwise every column is scaled and cts (empty) is reported. -/
def scaleandperiods (cols : List (List ℚ)) : Option (List (List ℚ) × List ℕ) :=
  let cts := (List.range cols.length).filter
    (fun j => decide (listMax (cols.getD j []) = listMin (cols.getD j [])))
  if cts.isEmpty then some (cols.map scaleColumn, cts) else none

/-- The initial accumulator never exceeds a max fold. -/
theorem foldl_max_init (ys : List ℚ) : ∀ acc : ℚ, acc ≤ ys.foldl max acc := by
  induction ys with
  | nil => intro acc; exact le_refl acc
  | cons y ys ih =>
    intro acc
    exact le_trans (le_max_left acc y) (ih (max acc y))

/-- Every member is bounded by a max fold. -/
theorem le_foldl_max (ys : List ℚ) : ∀ (acc x : ℚ), x ∈ ys → x ≤ ys.foldl max acc := by
  induction ys with
  | nil => intro acc x hx; simp at hx
  | cons y ys ih =>
    intro acc x hx
    rcases List.mem_cons.mp hx with h | h
    · subst h
      exact le_trans (le_max_right acc x) (foldl_max_init ys (max acc x))
    · exact ih (max acc y) x h

/-- A min fold never exceeds the initial accumulator. -/
theorem foldl_min_init (ys : List ℚ) : ∀ acc : ℚ, ys.foldl min acc ≤ acc := by
  induction ys with
  | nil => intro acc; exact le_refl acc
  | cons y ys ih =>
    intro acc
    exact le_trans (ih (min acc y)) (min_le_left acc y)

/-- A min fold is bounded by every member. -/
theorem foldl_min_le (ys : List ℚ) : ∀ (acc x : ℚ), x ∈ ys → ys.foldl min acc ≤ x := by
  induction ys with
  | nil => intro acc x hx; simp at hx
  | cons y ys ih =>
    intro acc x hx
    rcases List.mem_cons.mp hx with h | h
    · subst h
      exact le_trans (foldl_min_init ys (min acc x)) (min_le_right acc x)
    · exact ih (min acc y) x h

/-- Every member of a list is at most its listMax. -/
theorem le_listMax (c : List ℚ) (x : ℚ) (hx : x ∈ c) : x ≤ listMax c := by
  cases c with
  | nil => simp at hx
  | cons y ys =>
    rcases List.mem_cons.mp hx with h | h
    · subst h
      exact foldl_max_init ys x
    · exact le_foldl_max ys y x h

/-- Every member of a list is at least its listMin. -/
theorem listMin_le (c : List ℚ) (x : ℚ) (hx : x ∈ c) : listMin c ≤ x := by
  cases c with
  | nil => simp at hx
  | cons y ys =>
    rcases List.mem_cons.mp hx with h | h
    · subst h
      exact foldl_min_init ys x
    · exact foldl_min_le ys y x h

/-- Claim C9: the scaling formula maps each retained column through
x ↦ (x-max)/(max-min) + 1, sending the maximum to 1, the minimum to 0 and
every value into [0,1]; but a data frame with a constant column does not
have that column removed and reported — the branch crashes (first
conjunct, the 2x2 frame whose first column is constant).  The second
conjunct evaluates a constant-free frame. -/
theorem claim_C9_scaler :
    scaleandperiods [[(1 : ℚ), 1], [0, 2]] = none ∧
    scaleandperiods [[(0 : ℚ), 2], [1, 3]] = some ([[0, 1], [0, 1]], []) ∧
    (∀ c : List ℚ, listMin c < listMax c →
      (∀ y ∈ scaleColumn c, 0 ≤ y ∧ y ≤ 1) ∧
      1 + (1 / (listMax c - listMin c)) * (listMax c - listMax c) = 1 ∧
      1 + (1 / (listMax c - listMin c)) * (listMin c - listMax c) = 0) := by
  refine ⟨?_, ?_, ?_⟩
  · decide
  · have hM1 : listMax [(0 : ℚ), 2] = 2 := by decide
    have hm1 : listMin [(0 : ℚ), 2] = 0 := by decide
    have hM2 : listMax [(1 : ℚ), 3] = 3 := by decide
    have hm2 : listMin [(1 : ℚ), 3] = 1 := by decide
    have hcol1 : scaleColumn [(0 : ℚ), 2] = [0, 1] := by
      simp only [scaleColumn, List.map_cons, List.map_nil, hM1, hm1]
      norm_num
    have hcol2 : scaleColumn [(1 : ℚ), 3] = [0, 1] := by
      simp only [scaleColumn, List.map_cons, List.map_nil, hM2, hm2]
      norm_num
    have hstep : scaleandperiods [[(0 : ℚ), 2], [1, 3]] =
        some ([scaleColumn [(0 : ℚ), 2], scaleColumn [(1 : ℚ), 3]], []) := rfl
    rw [hstep, hcol1, hcol2]
  · intro c hlt
    have hpos : 0 < listMax c - listMin c := by linarith
    have hne : listMax c - listMin c ≠ 0 := ne_of_gt hpos
    refine ⟨?_, by rw [sub_self, mul_zero, add_zero], by field_simp⟩
    intro y hy
    obtain ⟨x, hx, hxy⟩ := List.mem_map.mp hy
    have h1 : x ≤ listMax c := le_listMax c x hx
    have h2 : listMin c ≤ x := listMin_le c x hx
    have hform : y = (x - listMin c) / (listMax c - listMin c) := by
      rw [← hxy]
      field_simp
    constructor
    · rw [hform]
      exact div_nonneg (by linarith) (le_of_lt hpos)
    · rw [hform]
      rw [div_le_one hpos]
      linarith

/-- Witness for claim C9's universally quantified part at the column [0,2]. -/
theorem claim_C9_scaler_witness :
    1 + (1 / (listMax [(0 : ℚ), 2] - listMin [(0 : ℚ), 2])) *
      (listMax [(0 : ℚ), 2] - listMax [(0 : ℚ), 2]) = 1 :=
  (claim_C9_scaler.2.2 [(0 : ℚ), 2] (by norm_num [listMax, listMin])).2.1

/-! ## Design matrices (designmatrices.py)

Matrices are lists of rows.  numpy column slicing M[:, a:b] selects the
columns a..b-1 of every row, and np.concatenate((M[:,0:1], M[:,a:b]),
axis=1) prepends column 0; both are modelled by selecting a list of column
indices from every row. -/

/-- Row k (0-based) of the full T x (1+deg+11) design matrix M built in
designmatrices.py lines 39-62: the intercept column, the polynomial trend
columns (k+1)^i for i = 1..deg, and the 11 monthly indicator columns (row
k of the stacked [eye(11); zeros(1,11)] blocks, i.e. the indicator of
k % 12 = c for c < 11). -/
def Mrow (deg k : ℕ) : List ℚ :=
  1 :: ((List.range deg).map (fun i => ((k + 1 : ℕ) : ℚ) ^ (i + 1)) ++
    (List.range 11).map (fun c => if k % 12 = c then 1 else 0))

/-- The full design matrix M (T rows). -/
def fullM (deg T : ℕ) : List (List ℚ) :=
  (List.range T).map (Mrow deg)

/-- Column selection: every row keeps the entries at the given column
indices, in order. -/
def selectCols (idx : List ℕ) (M : List (List ℚ)) : List (List ℚ) :=
  M.map (fun r => idx.map (fun c => r.getD c 0))

/-- designmatrices.py: returns (p, d, X, Z) for the eight flag
combinations of lines 64-110.  When T < 12 (num = floor(T/12) < 1, line
46) the branch of lines 47-49 runs X2 through line 49, which reads
X <- np.concatenate(...): in Python that is the comparison X < -(...), and
the name X is undefined at that point, so the call raises NameError before
returning — modelled as none.  Degenerate X (d = 0) and Z (p = 0), set to
the scalar 0 in the source, are modelled as the empty list. -/
def designmatrices (level trend seasonality : Bool) (deg T : ℕ) :
    Option (ℕ × ℕ × List (List ℚ) × List (List ℚ)) :=
  if T / 12 < 1 then none
  else
    match level, trend, seasonality with
    | false, false, false =>
      some (1 + deg + 11, 0, [], fullM deg T)
    | false, false, true =>
      some (1 + deg, 11, selectCols (List.range' (deg + 1) 11) (fullM deg T),
        selectCols (List.range' 0 (deg + 1)) (fullM deg T))
    | false, true, false =>
      some (1 + 11, deg, selectCols (List.range' 1 deg) (fullM deg T),
        selectCols (0 :: List.range' (deg + 1) 11) (fullM deg T))
    | true, false, false =>
      some (deg + 11, 1, selectCols [0] (fullM deg T),
        selectCols (List.range' 1 (deg + 11)) (fullM deg T))
    | true, true, false =>
      some (11, 1 + deg, selectCols (List.range' 0 (deg + 1)) (fullM deg T),
        selectCols (List.range' (deg + 1) 11) (fullM deg T))
    | true, false, true =>
      some (deg, 1 + 11, selectCols (0 :: List.range' (deg + 1) 11) (fullM deg T),
        selectCols (List.range' 1 deg) (fullM deg T))
    | false, true, true =>
      some (1, deg + 11, selectCols (List.range' 1 (deg + 11)) (fullM deg T),
        selectCols [0] (fullM deg T))
    | true, true, true =>
      some (0, 1 + deg + 11, fullM deg T, [])

/-- Every row of the full design matrix has 1+deg+11 entries. -/
theorem Mrow_length (deg k : ℕ) : (Mrow deg k).length = 1 + deg + 11 := by
  simp [Mrow]
  omega

/-- Shape of a column selection from the full design matrix: T rows of
idx.length entries each. -/
theorem selectCols_shape (idx : List ℕ) (deg T : ℕ) :
    (selectCols idx (fullM deg T)).length = T ∧
      ∀ r ∈ selectCols idx (fullM deg T), r.length = idx.length := by
  constructor
  · simp [selectCols, fullM]
  · intro r hr
    obtain ⟨r0, _, hr0⟩ := List.mem_map.mp hr
    rw [← hr0]
    simp

/-- Selecting all 1+deg+11 columns gives the full matrix back. -/
theorem selectCols_full (deg T : ℕ) :
    selectCols (List.range' 0 (1 + deg + 11)) (fullM deg T) = fullM deg T := by
  rw [selectCols]
  conv_rhs => rw [← List.map_id (fullM deg T)]
  refine List.map_congr_left ?_
  intro r hr
  have hrl : r.length = 1 + deg + 11 := by
    obtain ⟨k, _, hk⟩ := List.mem_map.mp hr
    rw [← hk]
    exact Mrow_length deg k
  show (List.range' 0 (1 + deg + 11)).map (fun c => r.getD c 0) = r
  rw [← List.range_eq_range', ← hrl]
  exact map_getD_range r

/-- Counterexample to claim C10: at the positive inputs deg = 2, T = 5 the
function does not return shape data at all — the T < 12 branch dies with a
NameError on designmatrices.py line 49 (X <- … is a comparison on the
undefined name X). -/
theorem claim_C10_counterexample :
    designmatrices false true true 2 5 = none := rfl

/-- Claim C10 (amended): for every flag combination and positive deg, for
every T ≥ 12 (the counterexample shows the claim fails for T < 12, where
the code raises NameError instead of returning), designmatrices returns
p and d with p + d = 1 + deg + 11; when p > 0 the matrix Z has T rows of
p entries, when d > 0 the matrix X has T rows of d entries, and both are
column selections of the full T x (1+deg+11) design matrix at disjoint
index sets. -/
theorem claim_C10_amended (level trend seasonality : Bool) (deg T : ℕ)
    (hdeg : 1 ≤ deg) (hT : 12 ≤ T) :
    ∃ p d X Z, designmatrices level trend seasonality deg T = some (p, d, X, Z) ∧
      p + d = 1 + deg + 11 ∧
      (0 < p → Z.length = T ∧ ∀ r ∈ Z, r.length = p) ∧
      (0 < d → X.length = T ∧ ∀ r ∈ X, r.length = d) ∧
      ∃ zI xI : List ℕ,
        List.Disjoint zI xI ∧
        (∀ c ∈ zI, c < 1 + deg + 11) ∧ (∀ c ∈ xI, c < 1 + deg + 11) ∧
        (0 < p → Z = selectCols zI (fullM deg T)) ∧
        (0 < d → X = selectCols xI (fullM deg T)) := by
  have hcond : ¬(T / 12 < 1) := by
    have h1 : 1 ≤ T / 12 := (Nat.one_le_div_iff (by norm_num)).mpr hT
    omega
  rw [designmatrices.eq_def, if_neg hcond]
  cases level <;> cases trend <;> cases seasonality
  · -- false false false
    refine ⟨_, _, _, _, rfl, by omega, ?_, ?_, List.range' 0 (1 + deg + 11), [], ?_, ?_, ?_, ?_, ?_⟩
    · intro _
      constructor
      · simp [fullM]
      · intro r hr
        obtain ⟨k, _, hk⟩ := List.mem_map.mp hr
        rw [← hk]
        exact Mrow_length deg k
    · intro h; exact absurd h (by omega)
    · intro a _ ha; simp at ha
    · intro c hc; rw [List.mem_range'_1] at hc; omega
    · intro c hc; simp at hc
    · intro _; exact (selectCols_full deg T).symm
    · intro h; exact absurd h (by omega)
  · -- false false true
    refine ⟨_, _, _, _, rfl, by omega, ?_, ?_,
      List.range' 0 (deg + 1), List.range' (deg + 1) 11, ?_, ?_, ?_, ?_, ?_⟩
    · intro _
      have h := selectCols_shape (List.range' 0 (deg + 1)) deg T
      refine ⟨h.1, fun r hr => ?_⟩
      rw [h.2 r hr]
      simp
      omega
    · intro _
      have h := selectCols_shape (List.range' (deg + 1) 11) deg T
      exact ⟨h.1, fun r hr => by rw [h.2 r hr]; simp⟩
    · intro a ha hb
      rw [List.mem_range'_1] at ha hb
      omega
    · intro c hc; rw [List.mem_range'_1] at hc; omega
    · intro c hc; rw [List.mem_range'_1] at hc; omega
    · intro _; rfl
    · intro _; rfl
  · -- false true false
    refine ⟨_, _, _, _, rfl, by omega, ?_, ?_,
      0 :: List.range' (deg + 1) 11, List.range' 1 deg, ?_, ?_, ?_, ?_, ?_⟩
    · intro _
      have h := selectCols_shape (0 :: List.range' (deg + 1) 11) deg T
      exact ⟨h.1, fun r hr => by rw [h.2 r hr]; simp⟩
    · intro _
      have h := selectCols_shape (List.range' 1 deg) deg T
      exact ⟨h.1, fun r hr => by rw [h.2 r hr]; simp⟩
    · intro a ha hb
      rcases List.mem_cons.mp ha with h | h
      · rw [List.mem_range'_1] at hb; omega
      · rw [List.mem_range'_1] at h
        rw [List.mem_range'_1] at hb
        omega
    · intro c hc
      rcases List.mem_cons.mp hc with h | h
      · omega
      · rw [List.mem_range'_1] at h; omega
    · intro c hc; rw [List.mem_range'_1] at hc; omega
    · intro _; rfl
    · intro _; rfl
  · -- false true true
    refine ⟨_, _, _, _, rfl, by omega, ?_, ?_,
      [0], List.range' 1 (deg + 11), ?_, ?_, ?_, ?_, ?_⟩
    · intro _
      have h := selectCols_shape [0] deg T
      exact ⟨h.1, fun r hr => by rw [h.2 r hr]; simp⟩
    · intro _
      have h := selectCols_shape (List.range' 1 (deg + 11)) deg T
      exact ⟨h.1, fun r hr => by rw [h.2 r hr]; simp⟩
    · intro a ha hb
      simp only [List.mem_singleton] at ha
      rw [List.mem_range'_1] at hb
      omega
    · intro c hc; simp only [List.mem_singleton] at hc; omega
    · intro c hc; rw [List.mem_range'_1] at hc; omega
    · intro _; rfl
    · intro _; rfl
  · -- true false false
    refine ⟨_, _, _, _, rfl, by omega, ?_, ?_,
      List.range' 1 (deg + 11), [0], ?_, ?_, ?_, ?_, ?_⟩
    · intro _
      have h := selectCols_shape (List.range' 1 (deg + 11)) deg T
      exact ⟨h.1, fun r hr => by rw [h.2 r hr]; simp⟩
    · intro _
      have h := selectCols_shape [0] deg T
      exact ⟨h.1, fun r hr => by rw [h.2 r hr]; simp⟩
    · intro a ha hb
      rw [List.mem_range'_1] at ha
      simp only [List.mem_singleton] at hb
      omega
    · intro c hc; rw [List.mem_range'_1] at hc; omega
    · intro c hc; simp only [List.mem_singleton] at hc; omega
    · intro _; rfl
    · intro _; rfl
  · -- true false true
    refine ⟨_, _, _, _, rfl, by omega, ?_, ?_,
      List.range' 1 deg, 0 :: List.range' (deg + 1) 11, ?_, ?_, ?_, ?_, ?_⟩
    · intro _
      have h := selectCols_shape (List.range' 1 deg) deg T
      exact ⟨h.1, fun r hr => by rw [h.2 r hr]; simp⟩
    · intro _
      have h := selectCols_shape (0 :: List.range' (deg + 1) 11) deg T
      exact ⟨h.1, fun r hr => by rw [h.2 r hr]; simp⟩
    · intro a ha hb
      rw [List.mem_range'_1] at ha
      rcases List.mem_cons.mp hb with h | h
      · omega
      · rw [List.mem_range'_1] at h; omega
    · intro c hc; rw [List.mem_range'_1] at hc; omega
    · intro c hc
      rcases List.mem_cons.mp hc with h | h
      · omega
      · rw [List.mem_range'_1] at h; omega
    · intro _; rfl
    · intro _; rfl
  · -- true true false
    refine ⟨_, _, _, _, rfl, by omega, ?_, ?_,
      List.range' (deg + 1) 11, List.range' 0 (deg + 1), ?_, ?_, ?_, ?_, ?_⟩
    · intro _
      have h := selectCols_shape (List.range' (deg + 1) 11) deg T
      exact ⟨h.1, fun r hr => by rw [h.2 r hr]; simp⟩
    · intro _
      have h := selectCols_shape (List.range' 0 (deg + 1)) deg T
      refine ⟨h.1, fun r hr => ?_⟩
      rw [h.2 r hr]
      simp
      omega
    · intro a ha hb
      rw [List.mem_range'_1] at ha hb
      omega
    · intro c hc; rw [List.mem_range'_1] at hc; omega
    · intro c hc; rw [List.mem_range'_1] at hc; omega
    · intro _; rfl
    · intro _; rfl
  · -- true true true
    refine ⟨_, _, _, _, rfl, by omega, ?_, ?_,
      [], List.range' 0 (1 + deg + 11), ?_, ?_, ?_, ?_, ?_⟩
    · intro h; exact absurd h (by omega)
    · intro _
      constructor
      · simp [fullM]
      · intro r hr
        obtain ⟨k, _, hk⟩ := List.mem_map.mp hr
        rw [← hk]
        exact Mrow_length deg k
    · intro a ha _; simp at ha
    · intro c hc; simp at hc
    · intro c hc; rw [List.mem_range'_1] at hc; omega
    · intro h; exact absurd h (by omega)
    · intro _; exact (selectCols_full deg T).symm

/-- Witness for the amended claim C10 at the default configuration
level = False, trend = seasonality = True, deg = 2, T = 24. -/
theorem claim_C10_amended_witness :
    ∃ p d X Z, designmatrices false true true 2 24 = some (p, d, X, Z) ∧
      p + d = 1 + 2 + 11 := by
  obtain ⟨p, d, X, Z, h1, h2, _⟩ :=
    claim_C10_amended false true true 2 24 (by norm_num) (by norm_num)
  exact ⟨p, d, X, Z, h1, h2⟩

end BNPTSClust
